import Mathlib

/-!
Verification of the `flowreg_hooks.check_readme_images` pre-commit hook.

The development shallowly embeds the Python source:
* strings are `List Char`;
* the two `re.sub` passes of `normalize_image_urls` are embedded as
  deterministic left-to-right scanners whose per-position matchers mirror the
  concrete regexes `(!\[[^\]]*\]\()((?!https?://)[^)]+)(\))` and
  `(<img\s+[^>]*src=")([^"]+)("[^>]*>)` (the latter case-insensitive, with the
  greedy backtracking of `[^>]*` resolved to the rightmost viable `src="`);
* the file driver `process_file`/`main` is embedded with an explicit
  file-system state `FS := Str → Option Str` (a missing path maps to `none`);
  read/write faults are outside the model;
* `get_git_info` is embedded with the outputs of the two git subprocesses as
  explicit `Option` parameters, and its remote-URL pattern
  `github\.com[:/](.+?)(?:\.git)?$` as a leftmost-occurrence search.
-/

namespace FlowregHooks

abbrev Str := List Char

/-- Boolean membership of a character in a string. -/
def memB (c : Char) : Str → Bool
  | [] => false
  | a :: t => decide (a = c) || memB c t

/-- Boolean "p begins s" on character lists. -/
def pfx : Str → Str → Bool
  | [], _ => true
  | _ :: _, [] => false
  | p :: ps, a :: as => decide (p = a) && pfx ps as

/-- Boolean "e ends s" on character lists (Python `str.endswith`). -/
def endsWithStr (e s : Str) : Bool := pfx e.reverse s.reverse

/-- Python `str.lower` restricted to ASCII case mapping. -/
def lowerStr (s : Str) : Str := s.map Char.toLower

/-- The module-level `ALLOWED_EXTENSIONS` set of the source. -/
def ALLOWED_EXTENSIONS : List Str :=
  [".png".toList, ".jpg".toList, ".jpeg".toList, ".gif".toList, ".svg".toList]

/-- `is_allowed_image` from the source:
`any(path.lower().endswith(ext) for ext in allowed_extensions)`. -/
def is_allowed_image (exts : List Str) (path : Str) : Bool :=
  exts.any (fun e => endsWithStr e (lowerStr path))

/-- `path.startswith(("http://", "https://"))` from the source. -/
def startsWithHttp (s : Str) : Bool :=
  pfx "http://".toList s || pfx "https://".toList s

/-- `path.lstrip("./")`: drop every leading `.` or `/` character. -/
def lstripDotSlash (s : Str) : Str :=
  s.dropWhile (fun c => c = '.' || c = '/')

/-- `normalize_path` from the source. -/
def normalize_path (path : Str) : Str :=
  if startsWithHttp path then path else lstripDotSlash path

/-- Split a string at the first occurrence of `stop`: returns the part
before it and the remainder beginning with `stop` (or `[]` if absent).
This realises the deterministic `[^x]*` scan of the regexes. -/
def spanNe (stop : Char) : Str → Str × Str
  | [] => ([], [])
  | c :: t =>
    if c = stop then ([], c :: t)
    else
      let r := spanNe stop t
      (c :: r.1, r.2)

/-- The whole text of a Markdown image match `![alt](url)` (group 0). -/
def mdG0 (alt url : Str) : Str :=
  '!' :: '[' :: alt ++ ']' :: '(' :: url ++ [')']

/-- The value returned by `replace_markdown` for a match with the given
groups: skip absolute URLs and non-image extensions, otherwise rewrite. -/
def mdRepl (B : Str) (exts : List Str) (alt url : Str) : Str :=
  if startsWithHttp url then mdG0 alt url
  else if is_allowed_image exts url then
    '!' :: '[' :: alt ++ ']' :: '(' :: (B ++ normalize_path url) ++ [')']
  else mdG0 alt url

/-- Attempt to match `(!\[[^\]]*\]\()((?!https?://)[^)]+)(\))` at the head of
`s`; on success return the replacement text and the rest of the input after
the match. -/
def tryMdMatch (B : Str) (exts : List Str) : Str → Option (Str × Str)
  | c1 :: c2 :: r =>
    if c1 = '!' ∧ c2 = '[' then
      let a := spanNe ']' r
      match a.2 with
      | ']' :: '(' :: r2 =>
        if startsWithHttp r2 then none
        else
          let u := spanNe ')' r2
          match u.2 with
          | ')' :: rest =>
            if u.1 = [] then none
            else some (mdRepl B exts a.1 u.1, rest)
          | _ => none
      | _ => none
    else none
  | _ => none

/-- Fuelled left-to-right `re.sub` scan for the Markdown pattern: at each
position try the matcher; on a match emit the replacement and continue after
the consumed text, otherwise emit one character and move on. -/
def subMdF (B : Str) (exts : List Str) : Nat → Str → Str
  | 0, s => s
  | n + 1, s =>
    match tryMdMatch B exts s with
    | some (repl, rest) => repl ++ subMdF B exts n rest
    | none =>
      match s with
      | [] => []
      | c :: t => c :: subMdF B exts n t

/-- The Markdown `re.sub` pass. -/
def subMd (B : Str) (exts : List Str) (s : Str) : Str :=
  subMdF B exts s.length s

/-- Case-insensitive character comparison (ASCII case folding), as used by
`re.IGNORECASE`. -/
def ciChar (a b : Char) : Bool := decide (a.toLower = b.toLower)

/-- Case-insensitive "pattern begins s". -/
def startsCI : Str → Str → Bool
  | [], _ => true
  | _ :: _, [] => false
  | p :: ps, a :: as => ciChar a p && startsCI ps as

/-- The literal `src="` of the HTML pattern. -/
def srcLit : Str := ['s', 'r', 'c', '=', '"']

/-- Python `\s` (ASCII whitespace). -/
def isPyWs (c : Char) : Bool :=
  c = ' ' || c = '\t' || c = '\n' || c = '\r' || c = '\x0b' || c = '\x0c'

/-- After a candidate `src="`, can the rest of the pattern
`([^"]+)("[^>]*>)` match? -/
def validAfter (q : Str) : Bool :=
  let v := spanNe '"' q
  match v.2 with
  | '"' :: t1 =>
    if v.1 = [] then false
    else
      let u := spanNe '>' t1
      match u.2 with
      | '>' :: _ => true
      | _ => false
  | _ => false

/-- Resolve the greedy `[^>]*` of the HTML pattern: find the rightmost
occurrence of `src="` (case-insensitive) before the first `>` whose remainder
satisfies the rest of the pattern.  Returns the text before the occurrence, the
original five characters of the occurrence, and the remainder after it. -/
def findSrcAux : Str → Option (Str × Str × Str)
  | [] => none
  | c :: t =>
    if c = '>' then none
    else
      match findSrcAux t with
      | some (p, l5, q) => some (c :: p, l5, q)
      | none =>
        if startsCI srcLit (c :: t) ∧ validAfter ((c :: t).drop 5) then
          some ([], (c :: t).take 5, (c :: t).drop 5)
        else none

/-- Groups 2 and 3 of the HTML pattern after the chosen `src="`: the
`[^"]+` value, the closing quote, `[^>]*` and the closing `>`; build the
replacement `replace_html` returns. -/
def htmlCore (B : Str) (exts : List Str) (c0 c1 c2 c3 : Char) (r : Str) :
    Option (Str × Str) :=
  match findSrcAux r with
  | some (p, l5, q) =>
    if p = [] then none
    else
      let v := spanNe '"' q
      match v.2 with
      | '"' :: t1 =>
        if v.1 = [] then none
        else
          let u := spanNe '>' t1
          match u.2 with
          | '>' :: rest =>
            let g1 := c0 :: c1 :: c2 :: c3 :: p ++ l5
            let g3 := '"' :: u.1 ++ ['>']
            let g0 := g1 ++ v.1 ++ g3
            let repl :=
              if startsWithHttp v.1 then g0
              else if is_allowed_image exts v.1 then
                g1 ++ (B ++ normalize_path v.1) ++ g3
              else g0
            some (repl, rest)
          | _ => none
      | _ => none
  | none => none

/-- The `<img` literal (case-insensitive) and the mandatory `\s+` head. -/
def htmlAt (B : Str) (exts : List Str) (c0 c1 c2 c3 : Char) (r : Str) :
    Option (Str × Str) :=
  if c0 = '<' ∧ ciChar c1 'i' ∧ ciChar c2 'm' ∧ ciChar c3 'g' then
    match r with
    | [] => none
    | cw :: _ =>
      if isPyWs cw then htmlCore B exts c0 c1 c2 c3 r else none
  else none

/-- Attempt to match `(<img\s+[^>]*src=")([^"]+)("[^>]*>)` (IGNORECASE) at the
head of `s`; on success return the replacement produced by `replace_html` and
the rest of the input after the match. -/
def tryHtmlMatch (B : Str) (exts : List Str) : Str → Option (Str × Str)
  | c0 :: c1 :: c2 :: c3 :: r => htmlAt B exts c0 c1 c2 c3 r
  | _ => none

/-- Fuelled left-to-right `re.sub` scan for the HTML pattern. -/
def subHtmlF (B : Str) (exts : List Str) : Nat → Str → Str
  | 0, s => s
  | n + 1, s =>
    match tryHtmlMatch B exts s with
    | some (repl, rest) => repl ++ subHtmlF B exts n rest
    | none =>
      match s with
      | [] => []
      | c :: t => c :: subHtmlF B exts n t

/-- The HTML `re.sub` pass. -/
def subHtml (B : Str) (exts : List Str) (s : Str) : Str :=
  subHtmlF B exts s.length s

/-- `normalize_image_urls(content, base_url, allowed_extensions)`: the
Markdown pass followed by the HTML pass. -/
def normalize_image_urls (content base_url : Str) (exts : List Str) : Str :=
  subHtml base_url exts (subMd base_url exts content)

/-- `normalize_image_urls` at the default `ALLOWED_EXTENSIONS`. -/
def normalizeD (content base_url : Str) : Str :=
  normalize_image_urls content base_url ALLOWED_EXTENSIONS

/-! ### Well-formed documents

A document built from plain characters and well-formed image references.  On
such documents both scanning passes act segment by segment, which yields a
closed-form description of `normalize_image_urls` and, over an `https` base
URL, idempotence. -/

/-- Does `p` end in four characters that case-insensitively read `src=`?
Such a tail would let the `src="` literal of the HTML pattern match across
the closing quote of an `src` value. -/
def endsSrcEq (p : Str) : Bool :=
  match p.reverse with
  | d :: c :: b :: a :: _ =>
    ciChar a 's' && ciChar b 'r' && ciChar c 'c' && ciChar d '='
  | _ => false

/-- Does the case-insensitive literal `src="` occur anywhere in `s`? -/
def hasLitOcc : Str → Bool
  | [] => false
  | c :: t => startsCI srcLit (c :: t) || hasLitOcc t

/-- A document segment: a plain character, a Markdown image reference
`![alt](path)`, or an HTML `img` tag
`<ttt w attrs src="path"attrs2>` with `ttt` reading `img` case-insensitively
and `s5` the five tag characters reading `src="` case-insensitively. -/
inductive Seg where
  | chr (c : Char)
  | md (alt path : Str)
  | htm (ti tm tg w : Char) (attrs s5 path attrs2 : Str)

/-- The text of a segment. -/
def renderSeg : Seg → Str
  | .chr c => [c]
  | .md alt path => mdG0 alt path
  | .htm ti tm tg w attrs s5 path attrs2 =>
    '<' :: ti :: tm :: tg :: w :: attrs ++ s5 ++ path ++ '"' :: attrs2 ++ ['>']

/-- The text of a document. -/
def renderDoc : List Seg → Str
  | [] => []
  | s :: rest => renderSeg s ++ renderDoc rest

/-- Well-formedness of a segment: plain characters do not open image markup;
alt-texts and paths do not contain their own closing delimiters nor characters
that could open a nested match; an HTML tag has genuine `img`/whitespace/
`src="` components and no stray `>` or second `src="` occurrence after the
attribute value starts. -/
def safeSeg : Seg → Bool
  | .chr c => !(decide (c = '!')) && !(decide (c = '<'))
  | .md alt path =>
    !(memB ']' alt) && !(memB '!' alt) && !(memB '<' alt) &&
    decide (path ≠ []) && !(memB ')' path) && !(memB '!' path) &&
    !(memB '<' path)
  | .htm ti tm tg w attrs s5 path attrs2 =>
    ciChar ti 'i' && ciChar tm 'm' && ciChar tg 'g' && isPyWs w &&
    startsCI srcLit s5 && decide (s5.length = 5) &&
    !(memB '>' attrs) && !(memB '!' attrs) &&
    decide (path ≠ []) && !(memB '"' path) && !(memB '!' path) &&
    !(memB '>' attrs2) && !(memB '!' attrs2) &&
    !(hasLitOcc (path ++ '"' :: attrs2 ++ ['>']))

/-- Base URLs that cannot interfere with the markup around a rewritten
path. -/
def safeBase (B : Str) : Bool :=
  !(memB '!' B) && !(memB '<' B) && !(memB ')' B) && !(memB '"' B)

/-- A well-formed base URL with an `https://` transport prefix, as built by
`main`. -/
def safeBaseHttps (B : Str) : Bool :=
  safeBase B && pfx "https://".toList B

/-- The effect of the Markdown pass on one segment. -/
def mdStep (B : Str) (exts : List Str) : Seg → Seg
  | .chr c => .chr c
  | .md alt path =>
    if startsWithHttp path then .md alt path
    else if is_allowed_image exts path then .md alt (B ++ normalize_path path)
    else .md alt path
  | .htm ti tm tg w attrs s5 path attrs2 => .htm ti tm tg w attrs s5 path attrs2

/-- The effect of the HTML pass on one segment. -/
def htmlStep (B : Str) (exts : List Str) : Seg → Seg
  | .chr c => .chr c
  | .md alt path => .md alt path
  | .htm ti tm tg w attrs s5 path attrs2 =>
    if startsWithHttp path then .htm ti tm tg w attrs s5 path attrs2
    else if is_allowed_image exts path then
      .htm ti tm tg w attrs s5 (B ++ normalize_path path) attrs2
    else .htm ti tm tg w attrs s5 path attrs2

/-! ### Repository locator (`get_git_info`) -/

/-- Remove one trailing `.git` if present, the effect of the lazy
`(.+?)(?:\.git)?$` tail of the remote-URL pattern (the group must stay
nonempty, so a bare `.git` is kept). -/
def stripDotGit (r : Str) : Str :=
  if pfx ".git".toList (r.drop (r.length - 4)) = true ∧ 4 < r.length then
    r.take (r.length - 4)
  else r

/-- Attempt the pattern `github\.com[:/](.+?)(?:\.git)?$` at the head of `s`:
the literal host substring, a `:` or `/` delimiter, and a nonempty remainder
running to the end of the string. -/
def tryGhHere (s : Str) : Option Str :=
  if pfx "github.com".toList s = true then
    match s.drop 10 with
    | d :: rest =>
      if (d = ':' ∨ d = '/') ∧ rest ≠ [] then some (stripDotGit rest)
      else none
    | [] => none
  else none

/-- `re.search` of the remote-URL pattern: the leftmost position at which the
pattern matches. -/
def parseGithubRemote : Str → Option Str
  | [] => none
  | c :: t =>
    match tryGhHere (c :: t) with
    | some r => some r
    | none => parseGithubRemote t

/-- Whether the remote-URL pattern matches anywhere in `u`. -/
def hasGhMatch : Str → Bool
  | [] => false
  | c :: t =>
    (match tryGhHere (c :: t) with
     | some _ => true
     | none => false) || hasGhMatch t

/-- `get_git_info`, with the (stripped) stdout of the two git subprocesses as
explicit inputs: `none` models a failing command.  The result is `none`
whenever the code raises `RuntimeError`: a failing `git config`, a remote URL
the pattern does not match, or a failing `git rev-parse`. -/
def get_git_info (remoteUrl headSha : Option Str) : Option (Str × Str) :=
  match remoteUrl with
  | none => none
  | some url =>
    match parseGithubRemote url with
    | none => none
    | some repoPath =>
      match headSha with
      | none => none
      | some sha => some (repoPath, sha)

/-- The host component of a `scheme://host/...` URL (text between the first
`://` and the following `/`).  Modelled from the spec: the spec's notion of
the "host name" a valid remote URL is anchored on; used only to state what
the locator does on URLs whose host is not `github.com`. -/
def dropScheme : Str → Str
  | [] => []
  | c :: t =>
    if pfx "://".toList (c :: t) = true then (c :: t).drop 3
    else dropScheme t

/-- See `dropScheme`. -/
def hostOf (u : Str) : Str :=
  (dropScheme u).takeWhile (fun c => !(c = '/'))

/-! ### File and CLI driver (`process_file`, `main`) -/

/-- The file system visible to the driver: each path is either absent or
holds a text content.  Reads and writes on present paths succeed; I/O faults
are outside the model. -/
def FS := Str → Option Str

/-- The warning printed for a missing input file. -/
def warnMissing (p : Str) : Str :=
  "Warning: ".toList ++ p ++ " not found, skipping".toList

/-- The stdout report in check-only mode. -/
def msgNeeds (p : Str) : Str :=
  p ++ ": Image URLs need normalization (use without --check-only to fix)".toList

/-- The stdout report after a write. -/
def msgDone (p : Str) : Str :=
  p ++ ": Normalized image URLs".toList

/-- `process_file(filepath, base_url, check_only)`: returns the change flag,
the file system after the call, and the printed messages. -/
def process_file (fs : FS) (filepath base_url : Str) (check_only : Bool) :
    Bool × FS × List Str :=
  match fs filepath with
  | none => (false, fs, [warnMissing filepath])
  | some content =>
    let normalized := normalizeD content base_url
    if normalized = content then (false, fs, [])
    else if check_only then (true, fs, [msgNeeds filepath])
    else (true, fun q => if q = filepath then some normalized else fs q,
          [msgDone filepath])

/-- The `for filename in args.filenames` loop of `main`: thread the file
system through `process_file` and accumulate the any-changes flag. -/
def runFiles (fs : FS) (base_url : Str) (check_only : Bool) :
    List Str → Bool × FS
  | [] => (false, fs)
  | f :: rest =>
    let r := process_file fs f base_url check_only
    let s := runFiles r.2.1 base_url check_only rest
    (r.1 || s.1, s.2)

/-- `ref = args.ref if args.ref else default_ref`: `None` and the empty
string are both falsy, so only a nonempty `--ref` overrides the resolved
revision. -/
def chosenRef (refArg : Option Str) (default_ref : Str) : Str :=
  match refArg with
  | some r => if r = [] then default_ref else r
  | none => default_ref

/-- `base_url = f"https://raw.githubusercontent.com/{repo_path}/{ref}/"`. -/
def mkBaseUrl (repo_path ref : Str) : Str :=
  "https://raw.githubusercontent.com/".toList ++ repo_path ++
    '/' :: ref ++ ['/']

/-- `main`: resolve the locator (exit 1 on failure before touching any file),
build the base URL, process every file, and exit 1 iff any file changed or
would change.  Returns the exit code and the final file system. -/
def main (remoteUrl headSha : Option Str) (refArg : Option Str)
    (check_only : Bool) (filenames : List Str) (fs : FS) : Nat × FS :=
  match get_git_info remoteUrl headSha with
  | none => (1, fs)
  | some (repo_path, default_ref) =>
    let base_url := mkBaseUrl repo_path (chosenRef refArg default_ref)
    let r := runFiles fs base_url check_only filenames
    (if r.1 then 1 else 0, r.2)

/-! ## Character and list utility lemmas -/

theorem toLower_fiber {c d : Char} (hd : ¬(97 ≤ d.toNat ∧ d.toNat ≤ 122))
    (h : c.toLower = d) : c = d := by
  unfold Char.toLower at h
  simp only [] at h
  by_cases hr : c.toNat ≥ 65 ∧ c.toNat ≤ 90
  · rw [if_pos hr] at h
    exfalso
    have hn := congrArg Char.toNat h
    have hv : Char.isValidCharNat (c.toNat + 32) := by
      left; omega
    rw [Char.ofNat, dif_pos hv] at hn
    simp only [Char.ofNatAux, Char.toNat, UInt32.ofNat', BitVec.ofNatLt,
      UInt32.toNat, BitVec.toNat_ofNatLt, BitVec.toNat] at hn hr hd
    omega
  · rw [if_neg hr] at h
    exact h

theorem ciChar_quote {c : Char} (h : ciChar c '"' = true) : c = '"' := by
  have h2 : c.toLower = '"' := by
    have := of_decide_eq_true h
    simpa using this
  exact toLower_fiber (by decide) h2

theorem ci_ne {x d e : Char} (h : ciChar x d = true) (he : ciChar e d = false) :
    x ≠ e := by
  intro hx
  subst hx
  rw [h] at he
  cases he

theorem memB_cons_false {c a : Char} {t : Str} (h : memB c (a :: t) = false) :
    a ≠ c ∧ memB c t = false := by
  simp only [memB, Bool.or_eq_false_iff, decide_eq_false_iff_not] at h
  exact h

theorem memB_append (c : Char) (l r : Str) :
    memB c (l ++ r) = (memB c l || memB c r) := by
  induction l with
  | nil => simp [memB]
  | cons a t ih => simp [memB, ih, Bool.or_assoc]

theorem memB_dropWhile (c : Char) (p : Char → Bool) {l : Str}
    (h : memB c l = false) : memB c (l.dropWhile p) = false := by
  induction l with
  | nil => simpa using h
  | cons a t ih =>
    obtain ⟨_, h2⟩ := memB_cons_false h
    rw [List.dropWhile]
    split
    · exact ih h2
    · exact h

theorem pfx_append_stop {p : Str} (stop : Char) (hp : memB stop p = false)
    (l r : Str) : pfx p (l ++ stop :: r) = pfx p l := by
  induction p generalizing l with
  | nil => rfl
  | cons x ps ih =>
    obtain ⟨hx, hp2⟩ := memB_cons_false hp
    cases l with
    | nil =>
      simp only [List.nil_append, pfx]
      have : decide (x = stop) = false := by
        simpa using hx
      simp [this]
    | cons a l' =>
      simp only [List.cons_append, pfx, List.append_eq]
      rw [ih hp2]

theorem pfx_refl_append (p r : Str) : pfx p (p ++ r) = true := by
  induction p with
  | nil => rfl
  | cons a t ih => simp [pfx, ih]

theorem pfx_mono_append {p B : Str} (h : pfx p B = true) (x : Str) :
    pfx p (B ++ x) = true := by
  induction p generalizing B with
  | nil => rfl
  | cons a ps ih =>
    cases B with
    | nil => cases h
    | cons b B' =>
      simp only [pfx, Bool.and_eq_true, decide_eq_true_eq] at h
      simp only [List.cons_append, pfx, Bool.and_eq_true, decide_eq_true_eq]
      exact ⟨h.1, ih h.2 ⟩

theorem pfx_cons_inv {p : Char} {ps s : Str} (h : pfx (p :: ps) s = true) :
    ∃ t, s = p :: t ∧ pfx ps t = true := by
  cases s with
  | nil => cases h
  | cons a t =>
    simp only [pfx, Bool.and_eq_true, decide_eq_true_eq] at h
    exact ⟨t, by rw [h.1], h.2⟩

theorem swh_append_rparen (path rest : Str) :
    startsWithHttp (path ++ ')' :: rest) = startsWithHttp path := by
  unfold startsWithHttp
  rw [pfx_append_stop ')' (by decide), pfx_append_stop ')' (by decide)]

theorem swh_append_quote (v rest : Str) :
    startsWithHttp (v ++ '"' :: rest) = startsWithHttp v := by
  unfold startsWithHttp
  rw [pfx_append_stop '"' (by decide), pfx_append_stop '"' (by decide)]

theorem swh_mono {B : Str} (h : pfx "https://".toList B = true) (x : Str) :
    startsWithHttp (B ++ x) = true := by
  unfold startsWithHttp
  rw [pfx_mono_append h x]
  simp

theorem spanNe_append_stop (stop : Char) {l : Str} (h : memB stop l = false)
    (r : Str) : spanNe stop (l ++ stop :: r) = (l, stop :: r) := by
  induction l with
  | nil => simp [spanNe]
  | cons a t ih =>
    obtain ⟨ha, h2⟩ := memB_cons_false h
    simp only [List.cons_append, spanNe, if_neg ha, List.append_eq, ih h2]

theorem spanNe_join (stop : Char) (s : Str) :
    (spanNe stop s).1 ++ (spanNe stop s).2 = s := by
  induction s with
  | nil => rfl
  | cons a t ih =>
    simp only [spanNe]
    split
    · simp
    · simpa using ih

theorem spanNe_snd_shape (stop : Char) (s : Str) :
    (spanNe stop s).2 = [] ∨ ∃ t, (spanNe stop s).2 = stop :: t := by
  induction s with
  | nil => left; rfl
  | cons a t ih =>
    simp only [spanNe]
    split
    · right; exact ⟨t, by simp_all⟩
    · simpa using ih

/-! ## Markdown pass lemmas -/

theorem isPyWs_spec {w : Char} (h : isPyWs w = true) :
    w = ' ' ∨ w = '\t' ∨ w = '\n' ∨ w = '\r' ∨ w = '\x0b' ∨ w = '\x0c' := by
  simp only [isPyWs, Bool.or_eq_true, decide_eq_true_eq] at h
  tauto

theorem tryMdMatch_not_bang (B : Str) (exts : List Str) {c : Char} (t : Str)
    (hc : c ≠ '!') : tryMdMatch B exts (c :: t) = none := by
  cases t with
  | nil => rfl
  | cons c2 r =>
    simp only [tryMdMatch]
    rw [if_neg (fun hh => hc hh.1)]

theorem tryMdMatch_ref (B : Str) (exts : List Str) {alt path : Str}
    (rest : Str) (halt : memB ']' alt = false) (hpr : memB ')' path = false)
    (hne : path ≠ []) :
    tryMdMatch B exts (mdG0 alt path ++ rest) =
      if startsWithHttp path then none
      else some (mdRepl B exts alt path, rest) := by
  have hshape : mdG0 alt path ++ rest =
      '!' :: '[' :: (alt ++ ']' :: '(' :: (path ++ ')' :: rest)) := by
    simp [mdG0]
  rw [hshape]
  simp only [tryMdMatch, spanNe_append_stop ']' halt,
    spanNe_append_stop ')' hpr, swh_append_rparen, eq_self_iff_true,
    and_self, if_true, if_neg hne]

theorem subMdF_nil (B : Str) (exts : List Str) (f : Nat) :
    subMdF B exts f [] = [] := by
  cases f <;> rfl

theorem subMdF_walk (B : Str) (exts : List Str) {l : Str} (s : Str) {f : Nat}
    (hl : memB '!' l = false) (hf : (l ++ s).length ≤ f) :
    subMdF B exts f (l ++ s) = l ++ subMdF B exts (f - l.length) s := by
  induction l generalizing f with
  | nil => simp
  | cons c l' ih =>
    obtain ⟨hc, hl'⟩ := memB_cons_false hl
    cases f with
    | zero => simp at hf
    | succ f' =>
      rw [List.cons_append]
      have hstep : subMdF B exts (f' + 1) (c :: (l' ++ s)) =
          c :: subMdF B exts f' (l' ++ s) := by
        simp only [subMdF, tryMdMatch_not_bang B exts _ hc]
      rw [hstep, ih hl' (by simp at hf ⊢; omega)]
      simp [Nat.succ_sub_succ]

theorem safeSeg_chr_iff {c : Char} :
    safeSeg (Seg.chr c) = true ↔ (c ≠ '!' ∧ c ≠ '<') := by
  simp [safeSeg, Bool.and_eq_true, Bool.not_eq_true', decide_eq_false_iff_not]

theorem safeSeg_md_iff {alt path : Str} :
    safeSeg (Seg.md alt path) = true ↔
      (memB ']' alt = false ∧ memB '!' alt = false ∧ memB '<' alt = false ∧
       path ≠ [] ∧ memB ')' path = false ∧ memB '!' path = false ∧
       memB '<' path = false) := by
  simp only [safeSeg, Bool.and_eq_true, Bool.not_eq_true', decide_eq_true_eq]
  tauto

theorem safeSeg_htm_iff {ti tm tg w : Char} {attrs s5 path attrs2 : Str} :
    safeSeg (Seg.htm ti tm tg w attrs s5 path attrs2) = true ↔
      (ciChar ti 'i' = true ∧ ciChar tm 'm' = true ∧ ciChar tg 'g' = true ∧
       isPyWs w = true ∧ startsCI srcLit s5 = true ∧ s5.length = 5 ∧
       memB '>' attrs = false ∧ memB '!' attrs = false ∧
       path ≠ [] ∧ memB '"' path = false ∧ memB '!' path = false ∧
       memB '>' attrs2 = false ∧ memB '!' attrs2 = false ∧
       hasLitOcc (path ++ '"' :: attrs2 ++ ['>']) = false) := by
  simp only [safeSeg, Bool.and_eq_true, Bool.not_eq_true', decide_eq_true_eq]
  tauto

theorem s5_shape {s5 : Str} (h1 : startsCI srcLit s5 = true)
    (h2 : s5.length = 5) :
    ∃ a b c d, s5 = [a, b, c, d, '"'] ∧ ciChar a 's' = true ∧
      ciChar b 'r' = true ∧ ciChar c 'c' = true ∧ ciChar d '=' = true := by
  rcases s5 with _ | ⟨a, _ | ⟨b, _ | ⟨c, _ | ⟨d, _ | ⟨e, _ | ⟨x, t⟩⟩⟩⟩⟩⟩ <;>
    simp only [List.length] at h2 <;> try omega
  simp only [srcLit, startsCI, Bool.and_eq_true] at h1
  obtain ⟨ha, hb, hc, hd, he, -⟩ := h1
  exact ⟨a, b, c, d, by rw [ciChar_quote he], ha, hb, hc, hd⟩

theorem memB_false_iff {c : Char} {l : Str} :
    memB c l = false ↔ ∀ x ∈ l, x ≠ c := by
  induction l with
  | nil => simp [memB]
  | cons a t ih =>
    simp [memB, Bool.or_eq_false_iff, decide_eq_false_iff_not, ih,
      List.forall_mem_cons]

theorem s5_bang_free {s5 : Str} (h1 : startsCI srcLit s5 = true)
    (h2 : s5.length = 5) : memB '!' s5 = false := by
  obtain ⟨a, b, c, d, rfl, ha, hb, hc, hd⟩ := s5_shape h1 h2
  rw [memB_false_iff]
  intro x hx
  simp only [List.mem_cons, List.not_mem_nil, or_false] at hx
  rcases hx with rfl | rfl | rfl | rfl | rfl
  · exact ci_ne ha (by decide)
  · exact ci_ne hb (by decide)
  · exact ci_ne hc (by decide)
  · exact ci_ne hd (by decide)
  · decide

theorem htm_tail_bang_free {ti tm tg : Char} {w : Char}
    {attrs s5 path attrs2 : Str}
    (hti : ciChar ti 'i' = true) (htm : ciChar tm 'm' = true)
    (htg : ciChar tg 'g' = true) (hw : isPyWs w = true)
    (hs5 : startsCI srcLit s5 = true) (hl5 : s5.length = 5)
    (ha : memB '!' attrs = false) (hp : memB '!' path = false)
    (ha2 : memB '!' attrs2 = false) :
    memB '!' ('<' :: ti :: tm :: tg :: w :: attrs ++ s5 ++ path ++
      '"' :: attrs2 ++ ['>']) = false := by
  have hwne : w ≠ '!' := by
    rcases isPyWs_spec hw with h | h | h | h | h | h <;> subst h <;> decide
  rw [memB_false_iff]
  intro x hx
  simp only [List.cons_append, List.mem_cons, List.mem_append,
    List.mem_singleton, List.not_mem_nil, or_false] at hx
  rcases hx with rfl | rfl | rfl | rfl | rfl | (((h | h) | h) | rfl | h) | rfl
  · decide
  · exact ci_ne hti (by decide)
  · exact ci_ne htm (by decide)
  · exact ci_ne htg (by decide)
  · exact hwne
  · exact memB_false_iff.mp ha x h
  · exact memB_false_iff.mp (s5_bang_free hs5 hl5) x h
  · exact memB_false_iff.mp hp x h
  · decide
  · exact memB_false_iff.mp ha2 x h
  · decide

theorem renderDoc_cons (s : Seg) (rest : List Seg) :
    renderDoc (s :: rest) = renderSeg s ++ renderDoc rest := rfl

theorem subMdF_doc (B : Str) (exts : List Str) :
    ∀ (segs : List Seg) (f : Nat), (∀ s ∈ segs, safeSeg s = true) →
      (renderDoc segs).length ≤ f →
      subMdF B exts f (renderDoc segs) =
        renderDoc (segs.map (mdStep B exts)) := by
  intro segs
  induction segs with
  | nil => intro f _ _; exact subMdF_nil B exts f
  | cons s rest ih =>
    intro f hsafe hf
    have hs := hsafe s (List.mem_cons_self s rest)
    have hrest := fun x hx => hsafe x (List.mem_cons_of_mem s hx)
    rw [renderDoc_cons] at hf ⊢
    rw [List.map_cons, renderDoc_cons]
    cases s with
    | chr c =>
      obtain ⟨hc, -⟩ := safeSeg_chr_iff.mp hs
      have hm : memB '!' [c] = false := by
        simp [memB, hc]
      rw [show renderSeg (Seg.chr c) = [c] from rfl] at hf ⊢
      rw [subMdF_walk B exts _ hm hf]
      have hle : (renderDoc rest).length ≤ f - ([c] : Str).length := by
        simp only [List.length_append, List.length_cons, List.length_nil]
          at hf ⊢
        omega
      rw [ih _ hrest hle]
      rfl
    | md alt path =>
      obtain ⟨halt, hab, -, hpne, hpr, hpb, -⟩ := safeSeg_md_iff.mp hs
      rw [show renderSeg (Seg.md alt path) = mdG0 alt path from rfl] at hf ⊢
      have hflen : (mdG0 alt path).length + (renderDoc rest).length ≤ f := by
        simpa [List.length_append] using hf
      have hlen : (mdG0 alt path).length = alt.length + path.length + 5 := by
        simp only [mdG0, List.length_append, List.length_cons,
          List.length_singleton, List.length_nil]
        omega
      cases f with
      | zero => omega
      | succ f' =>
        by_cases hhttp : startsWithHttp path = true
        · -- absolute path: no match at the reference, walked char by char
          have hmatch : tryMdMatch B exts (mdG0 alt path ++ renderDoc rest) =
              none := by
            rw [tryMdMatch_ref B exts _ halt hpr hpne, if_pos hhttp]
          have hshape : mdG0 alt path ++ renderDoc rest =
              '!' :: (('[' :: alt ++ ']' :: '(' :: path ++ [')']) ++
                renderDoc rest) := by
            simp [mdG0]
          have htail : memB '!' ('[' :: alt ++ ']' :: '(' :: path ++ [')']) =
              false := by
            rw [memB_false_iff]
            intro x hx
            simp only [List.cons_append, List.mem_cons, List.mem_append,
              List.mem_singleton, List.not_mem_nil, or_false] at hx
            rcases hx with rfl | (h | rfl | rfl | h) | rfl
            · decide
            · exact memB_false_iff.mp hab x h
            · decide
            · decide
            · exact memB_false_iff.mp hpb x h
            · decide
          have hstep : subMdF B exts (f' + 1)
              (mdG0 alt path ++ renderDoc rest) =
              '!' :: subMdF B exts f'
                ((('[' :: alt ++ ']' :: '(' :: path ++ [')']) ++
                  renderDoc rest)) := by
            rw [hshape] at hmatch ⊢
            simp only [subMdF, hmatch]
          have htlen : (('[' :: alt ++ ']' :: '(' :: path ++ [')']) ++
              renderDoc rest).length ≤ f' := by
            have := congrArg List.length hshape
            simp only [List.length_append, List.length_cons] at this hflen ⊢
            omega
          rw [hstep, subMdF_walk B exts _ htail htlen]
          have hle : (renderDoc rest).length ≤
              f' - ('[' :: alt ++ ']' :: '(' :: path ++ [')']).length := by
            simp only [List.length_append, List.length_cons] at htlen ⊢
            omega
          rw [ih _ hrest hle]
          have hstepid : mdStep B exts (Seg.md alt path) = Seg.md alt path := by
            simp [mdStep, hhttp]
          rw [hstepid]
          simp [renderSeg, mdG0]
        · -- relative path: the reference is one match
          have hmatch : tryMdMatch B exts (mdG0 alt path ++ renderDoc rest) =
              some (mdRepl B exts alt path, renderDoc rest) := by
            rw [tryMdMatch_ref B exts _ halt hpr hpne, if_neg hhttp]
          have hstep : subMdF B exts (f' + 1)
              (mdG0 alt path ++ renderDoc rest) =
              mdRepl B exts alt path ++ subMdF B exts f' (renderDoc rest) := by
            simp only [subMdF, hmatch]
          rw [hstep, ih f' hrest (by omega)]
          have hrepl : mdRepl B exts alt path =
              renderSeg (mdStep B exts (Seg.md alt path)) := by
            by_cases hall : is_allowed_image exts path = true
            · simp [mdRepl, mdStep, hhttp, hall, renderSeg, mdG0]
            · simp [mdRepl, mdStep, hhttp, hall, renderSeg, mdG0]
          rw [hrepl]
    | htm ti tm tg w attrs s5 path attrs2 =>
      obtain ⟨hti, htmm, htg, hw, hs5, hl5, -, hab, -, -, hpb, -, ha2b, -⟩ :=
        safeSeg_htm_iff.mp hs
      have hm := htm_tail_bang_free hti htmm htg hw hs5 hl5 hab hpb ha2b
      rw [show renderSeg (Seg.htm ti tm tg w attrs s5 path attrs2) =
        '<' :: ti :: tm :: tg :: w :: attrs ++ s5 ++ path ++
          '"' :: attrs2 ++ ['>'] from rfl] at hf ⊢
      rw [subMdF_walk B exts _ hm hf]
      have hle : (renderDoc rest).length ≤
          f - ('<' :: ti :: tm :: tg :: w :: attrs ++ s5 ++ path ++
            '"' :: attrs2 ++ ['>']).length := by
        simp only [List.length_append, List.length_cons, List.length_nil]
          at hf ⊢
        omega
      rw [ih _ hrest hle]
      rfl

theorem subMd_doc (B : Str) (exts : List Str) (segs : List Seg)
    (h : ∀ s ∈ segs, safeSeg s = true) :
    subMd B exts (renderDoc segs) = renderDoc (segs.map (mdStep B exts)) :=
  subMdF_doc B exts segs (renderDoc segs).length h (Nat.le_refl _)

/-! ## HTML pass lemmas -/

theorem ciChar_shift {x p q : Char} (h : ciChar x p = true) :
    ciChar x q = ciChar p q := by
  have hx : x.toLower = p.toLower := of_decide_eq_true h
  simp [ciChar, hx]

theorem startsCI_srcLit_shift (y rest : Str) :
    startsCI srcLit (y ++ '>' :: rest) = startsCI srcLit (y ++ ['>']) := by
  have e1 : ciChar '>' 's' = false := by decide
  have e2 : ciChar '>' 'r' = false := by decide
  have e3 : ciChar '>' 'c' = false := by decide
  have e4 : ciChar '>' '=' = false := by decide
  have e5 : ciChar '>' '"' = false := by decide
  rcases y with _ | ⟨a, _ | ⟨b, _ | ⟨c, _ | ⟨d, _ | ⟨e, t⟩⟩⟩⟩⟩ <;>
    simp [srcLit, startsCI, e1, e2, e3, e4, e5]

theorem hasLitOcc_cons (c : Char) (t : Str) :
    hasLitOcc (c :: t) = (startsCI srcLit (c :: t) || hasLitOcc t) := rfl

theorem findSrcAux_none_region : ∀ (x rest : Str),
    hasLitOcc (x ++ ['>']) = false → findSrcAux (x ++ '>' :: rest) = none := by
  intro x
  induction x with
  | nil =>
    intro rest _
    simp [findSrcAux]
  | cons c x' ih =>
    intro rest hocc
    rw [List.cons_append, hasLitOcc_cons, Bool.or_eq_false_iff] at hocc
    obtain ⟨h1, h2⟩ := hocc
    by_cases hc : c = '>'
    · subst hc
      rw [List.cons_append, findSrcAux, if_pos rfl]
    · rw [List.cons_append, findSrcAux, if_neg hc, ih rest h2]
      have hci : startsCI srcLit (c :: (x' ++ '>' :: rest)) = false := by
        have := startsCI_srcLit_shift (c :: x') rest
        simp only [List.cons_append] at this
        rw [this]
        simpa [List.cons_append] using h1
      simp only []
      rw [if_neg]
      intro hh
      rw [hci] at hh
      exact absurd hh.1 (by simp)

theorem validAfter_shape {path attrs2 : Str} (rest : Str)
    (hpq : memB '"' path = false) (hpne : path ≠ [])
    (ha2g : memB '>' attrs2 = false) :
    validAfter (path ++ '"' :: (attrs2 ++ '>' :: rest)) = true := by
  unfold validAfter
  simp only [spanNe_append_stop '"' hpq, spanNe_append_stop '>' ha2g,
    if_neg hpne]

theorem findSrcAux_lit {a b c d : Char} (Q : Str)
    (ha : ciChar a 's' = true) (hb : ciChar b 'r' = true)
    (hc : ciChar c 'c' = true) (hd : ciChar d '=' = true)
    (hQ : findSrcAux Q = none) (hv : validAfter Q = true) :
    findSrcAux ([a, b, c, d, '"'] ++ Q) = some ([], [a, b, c, d, '"'], Q) := by
  have n4 : findSrcAux ('"' :: Q) = none := by
    rw [findSrcAux, if_neg (by decide : ¬('"' = '>')), hQ]
    simp only []
    rw [if_neg]
    intro hh
    have : ciChar '"' 's' = true := by
      have := hh.1
      simp only [srcLit, startsCI, Bool.and_eq_true] at this
      exact this.1
    exact absurd this (by decide)
  have n3 : findSrcAux (d :: '"' :: Q) = none := by
    have hdgt : d ≠ '>' := ci_ne hd (by decide)
    rw [findSrcAux, if_neg hdgt, n4]
    simp only []
    rw [if_neg]
    intro hh
    have h1 := hh.1
    simp only [srcLit, startsCI, Bool.and_eq_true] at h1
    have := h1.1
    rw [ciChar_shift hd] at this
    exact absurd this (by decide)
  have n2 : findSrcAux (c :: d :: '"' :: Q) = none := by
    have hcgt : c ≠ '>' := ci_ne hc (by decide)
    rw [findSrcAux, if_neg hcgt, n3]
    simp only []
    rw [if_neg]
    intro hh
    have h1 := hh.1
    simp only [srcLit, startsCI, Bool.and_eq_true] at h1
    have := h1.1
    rw [ciChar_shift hc] at this
    exact absurd this (by decide)
  have n1 : findSrcAux (b :: c :: d :: '"' :: Q) = none := by
    have hbgt : b ≠ '>' := ci_ne hb (by decide)
    rw [findSrcAux, if_neg hbgt, n2]
    simp only []
    rw [if_neg]
    intro hh
    have h1 := hh.1
    simp only [srcLit, startsCI, Bool.and_eq_true] at h1
    have := h1.1
    rw [ciChar_shift hb] at this
    exact absurd this (by decide)
  have hagt : a ≠ '>' := ci_ne ha (by decide)
  have hfull : startsCI srcLit (a :: b :: c :: d :: '"' :: Q) = true := by
    simp [srcLit, startsCI, ha, hb, hc, hd, Bool.and_eq_true]
    decide
  simp only [List.cons_append, List.nil_append]
  rw [findSrcAux, if_neg hagt, n1]
  simp only []
  rw [if_pos ⟨hfull, by simpa [List.drop] using hv⟩]
  simp [List.take, List.drop]

theorem findSrcAux_lift {l : Str} (hl : memB '>' l = false) {rest p l5 q : Str}
    (h : findSrcAux rest = some (p, l5, q)) :
    findSrcAux (l ++ rest) = some (l ++ p, l5, q) := by
  induction l with
  | nil => simpa using h
  | cons c l' ih =>
    obtain ⟨hc, hl'⟩ := memB_cons_false hl
    rw [List.cons_append, findSrcAux, if_neg hc, ih hl']
    simp

theorem tryHtmlMatch_not_lt (B : Str) (exts : List Str) {c : Char} (t : Str)
    (hc : c ≠ '<') : tryHtmlMatch B exts (c :: t) = none := by
  rcases t with _ | ⟨c1, _ | ⟨c2, _ | ⟨c3, r⟩⟩⟩
  · rfl
  · rfl
  · rfl
  · simp only [tryHtmlMatch, htmlAt]
    rw [if_neg (fun hh => hc hh.1)]

theorem tryHtmlMatch_tag (B : Str) (exts : List Str)
    {ti tm tg w : Char} {attrs s5 path attrs2 : Str} (rest : Str)
    (hti : ciChar ti 'i' = true) (htmm : ciChar tm 'm' = true)
    (htg : ciChar tg 'g' = true) (hw : isPyWs w = true)
    (hs5 : startsCI srcLit s5 = true) (hl5 : s5.length = 5)
    (hagt : memB '>' attrs = false)
    (hpne : path ≠ []) (hpq : memB '"' path = false)
    (ha2g : memB '>' attrs2 = false)
    (hocc : hasLitOcc (path ++ '"' :: attrs2 ++ ['>']) = false) :
    tryHtmlMatch B exts
      (renderSeg (Seg.htm ti tm tg w attrs s5 path attrs2) ++ rest) =
      some (renderSeg (htmlStep B exts
        (Seg.htm ti tm tg w attrs s5 path attrs2)), rest) := by
  obtain ⟨a, b, c, d, rfl, ha, hb, hc, hd⟩ := s5_shape hs5 hl5
  have hQnone : findSrcAux (path ++ '"' :: (attrs2 ++ '>' :: rest)) = none := by
    have h0 : hasLitOcc ((path ++ '"' :: attrs2) ++ ['>']) = false := by
      simpa [List.append_assoc] using hocc
    have := findSrcAux_none_region (path ++ '"' :: attrs2) rest h0
    simpa [List.append_assoc] using this
  have hQvalid : validAfter (path ++ '"' :: (attrs2 ++ '>' :: rest)) = true :=
    validAfter_shape rest hpq hpne ha2g
  have hlit := findSrcAux_lit (path ++ '"' :: (attrs2 ++ '>' :: rest))
    ha hb hc hd hQnone hQvalid
  have hwa : memB '>' (w :: attrs) = false := by
    have hwne : w ≠ '>' := by
      rcases isPyWs_spec hw with h | h | h | h | h | h <;> subst h <;> decide
    simp [memB, hwne, hagt]
  have hfind := findSrcAux_lift hwa hlit
  rw [List.append_nil] at hfind
  simp only [List.cons_append, List.append_assoc, List.nil_append] at hfind
  have hshape : renderSeg (Seg.htm ti tm tg w attrs [a, b, c, d, '"']
      path attrs2) ++ rest =
      '<' :: ti :: tm :: tg :: ((w :: attrs) ++
        ([a, b, c, d, '"'] ++ (path ++ '"' :: (attrs2 ++ '>' :: rest)))) := by
    simp [renderSeg, List.append_assoc]
  rw [hshape]
  rw [show tryHtmlMatch B exts ('<' :: ti :: tm :: tg :: (w :: attrs ++
      ([a, b, c, d, '"'] ++ (path ++ '"' :: (attrs2 ++ '>' :: rest))))) =
    htmlAt B exts '<' ti tm tg (w :: attrs ++
      ([a, b, c, d, '"'] ++ (path ++ '"' :: (attrs2 ++ '>' :: rest))))
    from rfl]
  unfold htmlAt
  rw [if_pos ⟨rfl, hti, htmm, htg⟩, List.cons_append]
  simp only []
  rw [if_pos hw]
  unfold htmlCore
  simp only [List.cons_append, List.append_assoc, List.nil_append]
  rw [hfind]
  simp only [spanNe_append_stop '"' hpq, spanNe_append_stop '>' ha2g,
    if_neg hpne]
  by_cases hhttp : startsWithHttp path = true
  · simp [htmlStep, renderSeg, hhttp, List.append_assoc]
  · by_cases hall : is_allowed_image exts path = true
    · simp [htmlStep, renderSeg, hhttp, hall, List.append_assoc]
    · simp [htmlStep, renderSeg, hhttp, hall, List.append_assoc]

theorem subHtmlF_nil (B : Str) (exts : List Str) (f : Nat) :
    subHtmlF B exts f [] = [] := by
  cases f <;> rfl

theorem subHtmlF_walk (B : Str) (exts : List Str) {l : Str} (s : Str) {f : Nat}
    (hl : memB '<' l = false) (hf : (l ++ s).length ≤ f) :
    subHtmlF B exts f (l ++ s) = l ++ subHtmlF B exts (f - l.length) s := by
  induction l generalizing f with
  | nil => simp
  | cons c l' ih =>
    obtain ⟨hc, hl'⟩ := memB_cons_false hl
    cases f with
    | zero => simp at hf
    | succ f' =>
      rw [List.cons_append]
      have hstep : subHtmlF B exts (f' + 1) (c :: (l' ++ s)) =
          c :: subHtmlF B exts f' (l' ++ s) := by
        simp only [subHtmlF, tryHtmlMatch_not_lt B exts _ hc]
      rw [hstep, ih hl' (by simp at hf ⊢; omega)]
      simp [Nat.succ_sub_succ]

theorem mdG0_lt_free {alt path : Str} (ha : memB '<' alt = false)
    (hp : memB '<' path = false) : memB '<' (mdG0 alt path) = false := by
  rw [memB_false_iff]
  intro x hx
  simp only [mdG0, List.cons_append, List.mem_cons, List.mem_append,
    List.mem_singleton, List.not_mem_nil, or_false] at hx
  rcases hx with rfl | rfl | (h | rfl | rfl | h) | rfl
  · decide
  · decide
  · exact memB_false_iff.mp ha x h
  · decide
  · decide
  · exact memB_false_iff.mp hp x h
  · decide

theorem subHtmlF_doc (B : Str) (exts : List Str) :
    ∀ (segs : List Seg) (f : Nat), (∀ s ∈ segs, safeSeg s = true) →
      (renderDoc segs).length ≤ f →
      subHtmlF B exts f (renderDoc segs) =
        renderDoc (segs.map (htmlStep B exts)) := by
  intro segs
  induction segs with
  | nil => intro f _ _; exact subHtmlF_nil B exts f
  | cons s rest ih =>
    intro f hsafe hf
    have hs := hsafe s (List.mem_cons_self s rest)
    have hrest := fun x hx => hsafe x (List.mem_cons_of_mem s hx)
    rw [renderDoc_cons] at hf ⊢
    rw [List.map_cons, renderDoc_cons]
    cases s with
    | chr c =>
      obtain ⟨-, hc⟩ := safeSeg_chr_iff.mp hs
      have hm : memB '<' [c] = false := by
        simp [memB, hc]
      rw [show renderSeg (Seg.chr c) = [c] from rfl] at hf ⊢
      rw [subHtmlF_walk B exts _ hm hf]
      have hle : (renderDoc rest).length ≤ f - ([c] : Str).length := by
        simp only [List.length_append, List.length_cons, List.length_nil]
          at hf ⊢
        omega
      rw [ih _ hrest hle]
      rfl
    | md alt path =>
      obtain ⟨-, -, halt, -, -, -, hplt⟩ := safeSeg_md_iff.mp hs
      have hm : memB '<' (mdG0 alt path) = false := mdG0_lt_free halt hplt
      rw [show renderSeg (Seg.md alt path) = mdG0 alt path from rfl] at hf ⊢
      rw [subHtmlF_walk B exts _ hm hf]
      have hle : (renderDoc rest).length ≤ f - (mdG0 alt path).length := by
        simp only [List.length_append] at hf ⊢
        omega
      rw [ih _ hrest hle]
      rfl
    | htm ti tm tg w attrs s5 path attrs2 =>
      obtain ⟨hti, htmm, htg, hw, hs5, hl5, hagt, -, hpne, hpq, -, ha2g, -,
        hocc⟩ := safeSeg_htm_iff.mp hs
      have hmatch := tryHtmlMatch_tag B exts (renderDoc rest) hti htmm htg hw
        hs5 hl5 hagt hpne hpq ha2g hocc
      have hlen : 1 ≤ (renderSeg (Seg.htm ti tm tg w attrs s5 path
          attrs2)).length := by
        simp [renderSeg]
      cases f with
      | zero =>
        exfalso
        simp only [List.length_append] at hf
        omega
      | succ f' =>
        have hstep : subHtmlF B exts (f' + 1)
            (renderSeg (Seg.htm ti tm tg w attrs s5 path attrs2) ++
              renderDoc rest) =
            renderSeg (htmlStep B exts
              (Seg.htm ti tm tg w attrs s5 path attrs2)) ++
              subHtmlF B exts f' (renderDoc rest) := by
          simp only [subHtmlF, hmatch]
        rw [hstep, ih f' hrest (by simp only [List.length_append] at hf; omega)]

theorem subHtml_doc (B : Str) (exts : List Str) (segs : List Seg)
    (h : ∀ s ∈ segs, safeSeg s = true) :
    subHtml B exts (renderDoc segs) =
      renderDoc (segs.map (htmlStep B exts)) :=
  subHtmlF_doc B exts segs (renderDoc segs).length h (Nat.le_refl _)

theorem normalize_image_urls_doc (B : Str) (exts : List Str)
    (segs : List Seg) (hsafe : ∀ s ∈ segs, safeSeg s = true)
    (hstep : ∀ s ∈ segs, safeSeg (mdStep B exts s) = true) :
    normalize_image_urls (renderDoc segs) B exts =
      renderDoc (segs.map (fun s => htmlStep B exts (mdStep B exts s))) := by
  unfold normalize_image_urls
  rw [show subMd B exts (renderDoc segs) =
    renderDoc (segs.map (mdStep B exts)) from subMd_doc B exts segs hsafe]
  rw [subHtml_doc B exts (segs.map (mdStep B exts))
    (by intro s hx; obtain ⟨t, ht, rfl⟩ := List.mem_map.mp hx; exact hstep t ht)]
  rw [List.map_map]
  rfl

/-! ## Step safety preservation -/

theorem safeBase_iff {B : Str} :
    safeBase B = true ↔ (memB '!' B = false ∧ memB '<' B = false ∧
      memB ')' B = false ∧ memB '"' B = false) := by
  simp only [safeBase, Bool.and_eq_true, Bool.not_eq_true']
  tauto

theorem startsCI_srcLit_clean {z w : Str} (hq : memB '"' z = false)
    (he : endsSrcEq z = false) (hne : z ≠ []) :
    startsCI srcLit (z ++ '"' :: w) = false := by
  rcases z with _ | ⟨c, _ | ⟨x1, _ | ⟨x2, _ | ⟨x3, _ | ⟨x4, z5⟩⟩⟩⟩⟩
  · exact absurd rfl hne
  · simp [srcLit, startsCI, (by decide : ciChar '"' 'r' = false)]
  · simp [srcLit, startsCI, (by decide : ciChar '"' 'c' = false)]
  · simp [srcLit, startsCI, (by decide : ciChar '"' '=' = false)]
  · simp only [List.cons_append, List.nil_append]
    by_contra hcontra
    rw [Bool.not_eq_false] at hcontra
    simp only [srcLit, startsCI, Bool.and_eq_true] at hcontra
    obtain ⟨h1, h2, h3, h4, -⟩ := hcontra
    have hz : endsSrcEq [c, x1, x2, x3] = true := by
      simp [endsSrcEq, List.reverse_cons, h1, h2, h3, h4]
    rw [hz] at he
    cases he
  · simp only [List.cons_append]
    by_contra hcontra
    rw [Bool.not_eq_false] at hcontra
    simp only [srcLit, startsCI, Bool.and_eq_true] at hcontra
    obtain ⟨-, -, -, -, h5, -⟩ := hcontra
    have hx4 : x4 = '"' := ciChar_quote h5
    subst hx4
    exact absurd rfl (memB_false_iff.mp hq '"' (by simp))

theorem endsSrcEq_peel {z : Str} (c : Char) (h : endsSrcEq z = true) :
    endsSrcEq (c :: z) = true := by
  unfold endsSrcEq at h ⊢
  have hrev : (c :: z).reverse = z.reverse ++ [c] := by simp
  rw [hrev]
  rcases hz : z.reverse with _ | ⟨d, _ | ⟨cc, _ | ⟨b, _ | ⟨a, t⟩⟩⟩⟩ <;>
      rw [hz] at h
  · cases h
  · cases h
  · cases h
  · cases h
  · simpa [List.cons_append] using h

theorem hasLitOcc_append_false_right {x y : Str}
    (h : hasLitOcc (x ++ y) = false) : hasLitOcc y = false := by
  induction x with
  | nil => simpa using h
  | cons c t ih =>
    rw [List.cons_append, hasLitOcc_cons, Bool.or_eq_false_iff] at h
    exact ih h.2

theorem hasLitOcc_prepend_clean {z w : Str} (hq : memB '"' z = false)
    (he : endsSrcEq z = false) (hw : hasLitOcc ('"' :: w) = false) :
    hasLitOcc (z ++ '"' :: w) = false := by
  induction z with
  | nil => simpa using hw
  | cons c z' ih =>
    obtain ⟨-, hq'⟩ := memB_cons_false hq
    have he' : endsSrcEq z' = false := by
      by_contra hcon
      rw [Bool.not_eq_false] at hcon
      rw [endsSrcEq_peel c hcon] at he
      cases he
    rw [List.cons_append, hasLitOcc_cons, Bool.or_eq_false_iff]
    refine ⟨?_, ih hq' he'⟩
    have := startsCI_srcLit_clean (z := c :: z') (w := w) hq he (by simp)
    simpa [List.cons_append] using this

theorem last_lower_of_rev {path : Str} {g0 : Char} {t : Str}
    (h : (lowerStr path).reverse = g0 :: t) :
    ∃ u c0, path = u ++ [c0] ∧ c0.toLower = g0 := by
  have hmap : (lowerStr path).reverse = path.reverse.map Char.toLower := by
    simp [lowerStr]
  rw [hmap] at h
  rcases hrevp : path.reverse with _ | ⟨c0, t0⟩
  · rw [hrevp] at h
    cases h
  · rw [hrevp] at h
    simp only [List.map_cons, List.cons.injEq] at h
    refine ⟨t0.reverse, c0, ?_, h.1⟩
    have := congrArg List.reverse hrevp
    simpa using this

theorem allowed_last {path : Str}
    (h : is_allowed_image ALLOWED_EXTENSIONS path = true) :
    ∃ u c0, path = u ++ [c0] ∧ (c0.toLower = 'g' ∨ c0.toLower = 'f') := by
  simp only [is_allowed_image, ALLOWED_EXTENSIONS, List.any_eq_true] at h
  obtain ⟨e, he, hend⟩ := h
  unfold endsWithStr at hend
  simp only [List.mem_cons, List.not_mem_nil, or_false] at he
  rcases he with rfl | rfl | rfl | rfl | rfl
  · rw [show (".png".toList).reverse = 'g' :: "np.".toList from by decide]
      at hend
    obtain ⟨t, ht, -⟩ := pfx_cons_inv hend
    obtain ⟨u, c0, hu, hc⟩ := last_lower_of_rev ht
    exact ⟨u, c0, hu, Or.inl hc⟩
  · rw [show (".jpg".toList).reverse = 'g' :: "pj.".toList from by decide]
      at hend
    obtain ⟨t, ht, -⟩ := pfx_cons_inv hend
    obtain ⟨u, c0, hu, hc⟩ := last_lower_of_rev ht
    exact ⟨u, c0, hu, Or.inl hc⟩
  · rw [show (".jpeg".toList).reverse = 'g' :: "epj.".toList from by decide]
      at hend
    obtain ⟨t, ht, -⟩ := pfx_cons_inv hend
    obtain ⟨u, c0, hu, hc⟩ := last_lower_of_rev ht
    exact ⟨u, c0, hu, Or.inl hc⟩
  · rw [show (".gif".toList).reverse = 'f' :: "ig.".toList from by decide]
      at hend
    obtain ⟨t, ht, -⟩ := pfx_cons_inv hend
    obtain ⟨u, c0, hu, hc⟩ := last_lower_of_rev ht
    exact ⟨u, c0, hu, Or.inr hc⟩
  · rw [show (".svg".toList).reverse = 'g' :: "vs.".toList from by decide]
      at hend
    obtain ⟨t, ht, -⟩ := pfx_cons_inv hend
    obtain ⟨u, c0, hu, hc⟩ := last_lower_of_rev ht
    exact ⟨u, c0, hu, Or.inl hc⟩

theorem gf_not_dotslash {c0 : Char}
    (h : c0.toLower = 'g' ∨ c0.toLower = 'f') :
    (c0 = '.' || c0 = '/') = false := by
  rcases h with h | h
  all_goals {
    simp only [Bool.or_eq_false_iff, decide_eq_false_iff_not]
    constructor
    · intro hc; subst hc; simp at h
    · intro hc; subst hc; simp at h
  }

theorem lstrip_last {u : Str} {c0 : Char}
    (hc : (c0 = '.' || c0 = '/') = false) :
    ∃ u2, lstripDotSlash (u ++ [c0]) = u2 ++ [c0] := by
  induction u with
  | nil =>
    refine ⟨[], ?_⟩
    simp only [List.nil_append, lstripDotSlash, List.dropWhile]
    rw [hc]
  | cons a t ih =>
    rw [List.cons_append]
    unfold lstripDotSlash at ih ⊢
    rw [List.dropWhile]
    split
    · exact ih
    · exact ⟨a :: t, by simp⟩

theorem endsSrcEq_last {z u : Str} {c0 : Char} (hz : z = u ++ [c0])
    (hgf : c0.toLower = 'g' ∨ c0.toLower = 'f') : endsSrcEq z = false := by
  have hci : ciChar c0 '=' = false := by
    rcases hgf with h | h <;> (unfold ciChar; rw [h]; decide)
  have hrev : z.reverse = c0 :: u.reverse := by
    rw [hz]; simp
  unfold endsSrcEq
  rw [hrev]
  rcases u.reverse with _ | ⟨x1, _ | ⟨x2, _ | ⟨x3, t⟩⟩⟩
  · rfl
  · rfl
  · rfl
  · simp [hci]

theorem safeSeg_mdStep (B : Str) {s : Seg} (hB : safeBase B = true)
    (hs : safeSeg s = true) :
    safeSeg (mdStep B ALLOWED_EXTENSIONS s) = true := by
  obtain ⟨hb1, hb2, hb3, hb4⟩ := safeBase_iff.mp hB
  cases s with
  | chr c => simpa [mdStep] using hs
  | htm ti tm tg w attrs s5 path attrs2 => simpa [mdStep] using hs
  | md alt path =>
    obtain ⟨h1, h2, h3, h4, h5, h6, h7⟩ := safeSeg_md_iff.mp hs
    by_cases hhttp : startsWithHttp path = true
    · simpa [mdStep, hhttp] using hs
    · by_cases hall : is_allowed_image ALLOWED_EXTENSIONS path = true
      · have hstep : mdStep B ALLOWED_EXTENSIONS (Seg.md alt path) =
            Seg.md alt (B ++ normalize_path path) := by
          simp [mdStep, hhttp, hall]
        rw [hstep, safeSeg_md_iff]
        have hnp : normalize_path path = lstripDotSlash path := by
          simp [normalize_path, hhttp]
        obtain ⟨u, c0, hu, hgf⟩ := allowed_last hall
        obtain ⟨u2, hu2⟩ := lstrip_last (u := u) (gf_not_dotslash hgf)
        refine ⟨h1, h2, h3, ?_, ?_, ?_, ?_⟩
        · rw [hnp, hu, hu2]
          simp
        · rw [hnp, lstripDotSlash, memB_append, hb3, memB_dropWhile _ _ h5]
          rfl
        · rw [hnp, lstripDotSlash, memB_append, hb1, memB_dropWhile _ _ h6]
          rfl
        · rw [hnp, lstripDotSlash, memB_append, hb2, memB_dropWhile _ _ h7]
          rfl
      · simpa [mdStep, hhttp, hall] using hs

theorem safeSeg_htmlStep (B : Str) {s : Seg} (hB : safeBase B = true)
    (hs : safeSeg s = true) :
    safeSeg (htmlStep B ALLOWED_EXTENSIONS s) = true := by
  obtain ⟨hb1, hb2, hb3, hb4⟩ := safeBase_iff.mp hB
  cases s with
  | chr c => simpa [htmlStep] using hs
  | md alt path => simpa [htmlStep] using hs
  | htm ti tm tg w attrs s5 path attrs2 =>
    obtain ⟨k1, k2, k3, k4, k5, k6, k7, k8, k9, k10, k11, k12, k13, k14⟩ :=
      safeSeg_htm_iff.mp hs
    by_cases hhttp : startsWithHttp path = true
    · simpa [htmlStep, hhttp] using hs
    · by_cases hall : is_allowed_image ALLOWED_EXTENSIONS path = true
      · have hstep : htmlStep B ALLOWED_EXTENSIONS
            (Seg.htm ti tm tg w attrs s5 path attrs2) =
            Seg.htm ti tm tg w attrs s5 (B ++ normalize_path path) attrs2 := by
          simp [htmlStep, hhttp, hall]
        rw [hstep, safeSeg_htm_iff]
        have hnp : normalize_path path = lstripDotSlash path := by
          simp [normalize_path, hhttp]
        obtain ⟨u, c0, hu, hgf⟩ := allowed_last hall
        obtain ⟨u2, hu2⟩ := lstrip_last (u := u) (gf_not_dotslash hgf)
        have hpform : B ++ normalize_path path = (B ++ u2) ++ [c0] := by
          rw [hnp, hu, hu2, List.append_assoc]
        have hz1 : memB '"' (B ++ normalize_path path) = false := by
          rw [hnp, lstripDotSlash, memB_append, hb4, memB_dropWhile _ _ k10]
          rfl
        refine ⟨k1, k2, k3, k4, k5, k6, k7, k8, ?_, hz1, ?_, k12, k13, ?_⟩
        · rw [hpform]
          simp
        · rw [hnp, lstripDotSlash, memB_append, hb1, memB_dropWhile _ _ k11]
          rfl
        · have hz2 : endsSrcEq (B ++ normalize_path path) = false :=
            endsSrcEq_last hpform hgf
          have hw : hasLitOcc ('"' :: (attrs2 ++ ['>'])) = false := by
            have := hasLitOcc_append_false_right (x := path)
              (by simpa [List.cons_append] using k14)
            simpa [List.cons_append] using this
          have := hasLitOcc_prepend_clean hz1 hz2 hw
          simpa [List.cons_append, List.append_assoc] using this
      · simpa [htmlStep, hhttp, hall] using hs

theorem step_idem (B : Str) (s : Seg)
    (hhttps : pfx "https://".toList B = true) :
    htmlStep B ALLOWED_EXTENSIONS (mdStep B ALLOWED_EXTENSIONS
      (htmlStep B ALLOWED_EXTENSIONS (mdStep B ALLOWED_EXTENSIONS s))) =
    htmlStep B ALLOWED_EXTENSIONS (mdStep B ALLOWED_EXTENSIONS s) := by
  cases s with
  | chr c => rfl
  | md alt path =>
    by_cases hhttp : startsWithHttp path = true
    · simp [mdStep, htmlStep, hhttp]
    · by_cases hall : is_allowed_image ALLOWED_EXTENSIONS path = true
      · have habs : startsWithHttp (B ++ normalize_path path) = true :=
          swh_mono hhttps _
        simp [mdStep, htmlStep, hhttp, hall, habs]
      · simp [mdStep, htmlStep, hhttp, hall]
  | htm ti tm tg w attrs s5 path attrs2 =>
    by_cases hhttp : startsWithHttp path = true
    · simp [mdStep, htmlStep, hhttp]
    · by_cases hall : is_allowed_image ALLOWED_EXTENSIONS path = true
      · have habs : startsWithHttp (B ++ normalize_path path) = true :=
          swh_mono hhttps _
        simp [mdStep, htmlStep, hhttp, hall, habs]
      · simp [mdStep, htmlStep, hhttp, hall]

theorem normalizeD_doc (B : Str) (segs : List Seg) (hB : safeBase B = true)
    (hsafe : ∀ s ∈ segs, safeSeg s = true) :
    normalizeD (renderDoc segs) B =
      renderDoc (segs.map (fun s => htmlStep B ALLOWED_EXTENSIONS
        (mdStep B ALLOWED_EXTENSIONS s))) := by
  unfold normalizeD
  exact normalize_image_urls_doc B ALLOWED_EXTENSIONS segs hsafe
    (fun s hx => safeSeg_mdStep B hB (hsafe s hx))

theorem normalizeD_idem_doc (B : Str) (segs : List Seg)
    (hB : safeBaseHttps B = true) (hsafe : ∀ s ∈ segs, safeSeg s = true) :
    normalizeD (normalizeD (renderDoc segs) B) B =
      normalizeD (renderDoc segs) B := by
  have hB2 : safeBase B = true ∧ pfx "https://".toList B = true := by
    simpa [safeBaseHttps, Bool.and_eq_true] using hB
  obtain ⟨hB0, hhttps⟩ := hB2
  rw [normalizeD_doc B segs hB0 hsafe]
  have hsafe2 : ∀ s ∈ segs.map (fun s => htmlStep B ALLOWED_EXTENSIONS
      (mdStep B ALLOWED_EXTENSIONS s)), safeSeg s = true := by
    intro s hx
    obtain ⟨t, ht, rfl⟩ := List.mem_map.mp hx
    exact safeSeg_htmlStep B hB0 (safeSeg_mdStep B hB0 (hsafe t ht))
  rw [normalizeD_doc B _ hB0 hsafe2]
  rw [List.map_map]
  congr 1
  apply List.map_congr_left
  intro s _
  simp only [Function.comp]
  exact step_idem B s hhttps

/-! ## Claim theorems: the URL normalizer -/

theorem normalizeD_single (B : Str) (s : Seg) (hsafe : safeSeg s = true)
    (hstep : safeSeg (mdStep B ALLOWED_EXTENSIONS s) = true) :
    normalizeD (renderSeg s) B =
      renderSeg (htmlStep B ALLOWED_EXTENSIONS
        (mdStep B ALLOWED_EXTENSIONS s)) := by
  have h1 : ∀ x ∈ [s], safeSeg x = true := by
    intro x hx
    simp only [List.mem_singleton] at hx
    subst hx
    exact hsafe
  have h2 : ∀ x ∈ [s], safeSeg (mdStep B ALLOWED_EXTENSIONS x) = true := by
    intro x hx
    simp only [List.mem_singleton] at hx
    subst hx
    exact hstep
  have h := normalize_image_urls_doc B ALLOWED_EXTENSIONS [s] h1 h2
  simpa [renderDoc, normalizeD] using h

/-- Claim C1, counterexample: `normalize_image_urls` is not idempotent for
every text.  On `![a](b ![c](d.png)` the greedy `[^)]+` of the Markdown
pattern swallows the inner image reference into the rewritten path, and the
second pass then rewrites the inner `![c](d.png)` tail again. -/
theorem c1_not_idempotent_counterexample :
    normalizeD (normalizeD "![a](b ![c](d.png)".toList
        "https://raw.example/o/r/sha/".toList)
      "https://raw.example/o/r/sha/".toList ≠
    normalizeD "![a](b ![c](d.png)".toList
      "https://raw.example/o/r/sha/".toList := by
  decide

/-- Claim C1, amended: `normalize_image_urls` is idempotent on every document
made of plain characters (other than `!` and `<`) and well-formed Markdown or
HTML image references, for every base URL with an `https://` transport prefix
and no markup-interfering characters — in particular for the base URLs the
tool itself builds.  Every rewritten path starts with the absolute prefix and
is skipped on a second pass. -/
theorem c1_idempotent_on_safe_docs (B : Str) (segs : List Seg)
    (hB : safeBaseHttps B = true) (hsafe : ∀ s ∈ segs, safeSeg s = true) :
    normalizeD (normalizeD (renderDoc segs) B) B =
      normalizeD (renderDoc segs) B :=
  normalizeD_idem_doc B segs hB hsafe

theorem c1_idempotent_on_safe_docs_witness :
    safeBaseHttps "https://raw.example/o/r/sha/".toList = true ∧
    (∀ s ∈ [Seg.chr 'h', Seg.md "a".toList "x.png".toList, Seg.chr ' ',
        Seg.htm 'I' 'm' 'G' ' ' "id=x ".toList srcLit "y.png".toList
          " alt=\"l\"".toList],
      safeSeg s = true) ∧
    normalizeD (normalizeD (renderDoc [Seg.chr 'h',
        Seg.md "a".toList "x.png".toList, Seg.chr ' ',
        Seg.htm 'I' 'm' 'G' ' ' "id=x ".toList srcLit "y.png".toList
          " alt=\"l\"".toList])
      "https://raw.example/o/r/sha/".toList)
      "https://raw.example/o/r/sha/".toList =
    normalizeD (renderDoc [Seg.chr 'h', Seg.md "a".toList "x.png".toList,
        Seg.chr ' ', Seg.htm 'I' 'm' 'G' ' ' "id=x ".toList srcLit
          "y.png".toList " alt=\"l\"".toList])
      "https://raw.example/o/r/sha/".toList :=
  ⟨by decide, by decide,
    c1_idempotent_on_safe_docs _ _ (by decide) (by decide)⟩

/-- Claim C2: a Markdown image reference `![alt](path)` with a relative path
and an allowed extension is rewritten by left-trimming every leading `.` and
`/` from the path and prepending the base URL, with the `![alt](` prefix and
`)` suffix preserved verbatim. -/
theorem c2_markdown_relative_rewrite (B alt path : Str)
    (hB : safeBase B = true)
    (hsafe : safeSeg (Seg.md alt path) = true)
    (hhttp : startsWithHttp path = false)
    (hall : is_allowed_image ALLOWED_EXTENSIONS path = true) :
    normalizeD (mdG0 alt path) B = mdG0 alt (B ++ lstripDotSlash path) := by
  have h := normalizeD_single B (Seg.md alt path) hsafe
    (safeSeg_mdStep B hB hsafe)
  rw [show renderSeg (Seg.md alt path) = mdG0 alt path from rfl] at h
  rw [h]
  simp [mdStep, htmlStep, hhttp, hall, renderSeg, normalize_path]

/-- Claim C2 witness: the concrete example of the claim,
`normalize("![x](./assets/Logo.JPG)", "https://raw.example/o/r/sha/")`. -/
theorem c2_markdown_relative_rewrite_witness :
    normalizeD "![x](./assets/Logo.JPG)".toList
      "https://raw.example/o/r/sha/".toList =
    "![x](https://raw.example/o/r/sha/assets/Logo.JPG)".toList := by
  have h := c2_markdown_relative_rewrite "https://raw.example/o/r/sha/".toList
    "x".toList "./assets/Logo.JPG".toList (by decide) (by decide) (by decide)
    (by decide)
  rw [show ("![x](./assets/Logo.JPG)".toList : Str) =
    mdG0 "x".toList "./assets/Logo.JPG".toList from by decide]
  rw [h]
  decide

/-- Claim C3, counterexample: a path with an absolute `ftp://` transport
prefix is not left unchanged — the code only recognises `http://` and
`https://`, so `![a](ftp://x/y.png)` is rewritten. -/
theorem c3_ftp_rewritten_counterexample :
    normalizeD "![a](ftp://x/y.png)".toList
      "https://raw.example/o/r/sha/".toList ≠
    "![a](ftp://x/y.png)".toList := by
  decide

/-- Claim C3, amended: an image reference (Markdown or HTML) whose path
already starts with `http://` or `https://` — the two transports the code
recognises — is left unchanged. -/
theorem c3_http_absolute_untouched (B : Str) :
    (∀ alt path, safeSeg (Seg.md alt path) = true →
      startsWithHttp path = true →
      normalizeD (mdG0 alt path) B = mdG0 alt path) ∧
    (∀ ti tm tg w attrs s5 path attrs2,
      safeSeg (Seg.htm ti tm tg w attrs s5 path attrs2) = true →
      startsWithHttp path = true →
      normalizeD (renderSeg (Seg.htm ti tm tg w attrs s5 path attrs2)) B =
        renderSeg (Seg.htm ti tm tg w attrs s5 path attrs2)) := by
  constructor
  · intro alt path hsafe hhttp
    have hstep : mdStep B ALLOWED_EXTENSIONS (Seg.md alt path) =
        Seg.md alt path := by
      simp [mdStep, hhttp]
    have h := normalizeD_single B (Seg.md alt path) hsafe (by rw [hstep]; exact hsafe)
    rw [show renderSeg (Seg.md alt path) = mdG0 alt path from rfl] at h
    rw [h, hstep]
    simp [htmlStep, renderSeg]
  · intro ti tm tg w attrs s5 path attrs2 hsafe hhttp
    have h := normalizeD_single B (Seg.htm ti tm tg w attrs s5 path attrs2)
      hsafe hsafe
    rw [h]
    simp [mdStep, htmlStep, hhttp]

theorem c3_http_absolute_untouched_witness :
    (safeSeg (Seg.md "a".toList "https://x/y.png".toList) = true ∧
      startsWithHttp "https://x/y.png".toList = true ∧
      normalizeD (mdG0 "a".toList "https://x/y.png".toList)
        "https://raw.example/o/r/sha/".toList =
        mdG0 "a".toList "https://x/y.png".toList) ∧
    (safeSeg (Seg.htm 'i' 'm' 'g' ' ' [] srcLit "http://x/y.png".toList
        [] ) = true ∧
      normalizeD (renderSeg (Seg.htm 'i' 'm' 'g' ' ' [] srcLit
          "http://x/y.png".toList []))
        "https://raw.example/o/r/sha/".toList =
        renderSeg (Seg.htm 'i' 'm' 'g' ' ' [] srcLit
          "http://x/y.png".toList [])) :=
  ⟨⟨by decide, by decide,
    (c3_http_absolute_untouched "https://raw.example/o/r/sha/".toList).1
      "a".toList "https://x/y.png".toList (by decide) (by decide)⟩,
   ⟨by decide,
    (c3_http_absolute_untouched "https://raw.example/o/r/sha/".toList).2
      'i' 'm' 'g' ' ' [] srcLit "http://x/y.png".toList [] (by decide)
      (by decide)⟩⟩

/-- Claim C4: an image reference (Markdown or HTML) whose path does not end,
case-insensitively, in one of the default allowed extensions
`.png .jpg .jpeg .gif .svg` is left unchanged, even inside image markup. -/
theorem c4_disallowed_extension_untouched (B : Str) :
    (∀ alt path, safeSeg (Seg.md alt path) = true →
      is_allowed_image ALLOWED_EXTENSIONS path = false →
      normalizeD (mdG0 alt path) B = mdG0 alt path) ∧
    (∀ ti tm tg w attrs s5 path attrs2,
      safeSeg (Seg.htm ti tm tg w attrs s5 path attrs2) = true →
      is_allowed_image ALLOWED_EXTENSIONS path = false →
      normalizeD (renderSeg (Seg.htm ti tm tg w attrs s5 path attrs2)) B =
        renderSeg (Seg.htm ti tm tg w attrs s5 path attrs2)) := by
  constructor
  · intro alt path hsafe hall
    have hstep : mdStep B ALLOWED_EXTENSIONS (Seg.md alt path) =
        Seg.md alt path := by
      by_cases hhttp : startsWithHttp path = true <;>
        simp [mdStep, hhttp, hall]
    have h := normalizeD_single B (Seg.md alt path) hsafe
      (by rw [hstep]; exact hsafe)
    rw [show renderSeg (Seg.md alt path) = mdG0 alt path from rfl] at h
    rw [h, hstep]
    simp [htmlStep, renderSeg]
  · intro ti tm tg w attrs s5 path attrs2 hsafe hall
    have h := normalizeD_single B (Seg.htm ti tm tg w attrs s5 path attrs2)
      hsafe hsafe
    rw [h]
    by_cases hhttp : startsWithHttp path = true <;>
      simp [mdStep, htmlStep, hhttp, hall]

theorem c4_disallowed_extension_untouched_witness :
    (safeSeg (Seg.md "a".toList "docs/file.txt".toList) = true ∧
      is_allowed_image ALLOWED_EXTENSIONS "docs/file.txt".toList = false ∧
      normalizeD (mdG0 "a".toList "docs/file.txt".toList)
        "https://raw.example/o/r/sha/".toList =
        mdG0 "a".toList "docs/file.txt".toList) ∧
    normalizeD (renderSeg (Seg.htm 'i' 'm' 'g' ' ' [] srcLit
        "doc.pdf".toList []))
      "https://raw.example/o/r/sha/".toList =
      renderSeg (Seg.htm 'i' 'm' 'g' ' ' [] srcLit "doc.pdf".toList []) :=
  ⟨⟨by decide, by decide,
    (c4_disallowed_extension_untouched
        "https://raw.example/o/r/sha/".toList).1
      "a".toList "docs/file.txt".toList (by decide) (by decide)⟩,
    (c4_disallowed_extension_untouched
        "https://raw.example/o/r/sha/".toList).2
      'i' 'm' 'g' ' ' [] srcLit "doc.pdf".toList [] (by decide) (by decide)⟩

/-- Claim C5: an HTML `img` tag — tag and `src=` attribute matched
case-insensitively, `src` value delimited by double quotes — holding a
relative path with an allowed extension has its `src` value rewritten exactly
as a Markdown path (leading `.`/`/` trimmed, base URL prepended), with every
other attribute and the surrounding markup preserved verbatim. -/
theorem c5_html_src_rewrite (B : Str) (ti tm tg w : Char)
    (attrs s5 path attrs2 : Str)
    (hsafe : safeSeg (Seg.htm ti tm tg w attrs s5 path attrs2) = true)
    (hhttp : startsWithHttp path = false)
    (hall : is_allowed_image ALLOWED_EXTENSIONS path = true) :
    normalizeD (renderSeg (Seg.htm ti tm tg w attrs s5 path attrs2)) B =
      renderSeg (Seg.htm ti tm tg w attrs s5 (B ++ lstripDotSlash path)
        attrs2) := by
  have h := normalizeD_single B (Seg.htm ti tm tg w attrs s5 path attrs2)
    hsafe hsafe
  rw [h]
  simp [mdStep, htmlStep, hhttp, hall, normalize_path]

theorem c5_html_src_rewrite_witness :
    normalizeD (renderSeg (Seg.htm 'i' 'm' 'g' ' ' [] srcLit
        "img/logo.svg".toList " alt=\"logo\"".toList))
      "https://raw.example/o/r/sha/".toList =
    renderSeg (Seg.htm 'i' 'm' 'g' ' ' [] srcLit
      ("https://raw.example/o/r/sha/".toList ++
        lstripDotSlash "img/logo.svg".toList) " alt=\"logo\"".toList) :=
  c5_html_src_rewrite "https://raw.example/o/r/sha/".toList 'i' 'm' 'g' ' '
    [] srcLit "img/logo.svg".toList " alt=\"logo\"".toList (by decide)
    (by decide) (by decide)

/-! ## Claim theorems: driver and locator -/

/-- Claim C6: `process_file` mutates the file system iff `check_only` is
false and the normalized content differs from the original; in check-only
mode the file system is never mutated; a write leaves exactly the normalized
content at the path and touches no other path. -/
theorem c6_process_file_frame (fs : FS) (p B : Str) :
    ((process_file fs p B true).2.1 = fs) ∧
    (∀ content, fs p = some content →
      (((process_file fs p B false).2.1 = fs) ↔
        normalizeD content B = content) ∧
      (normalizeD content B ≠ content →
        (process_file fs p B false).2.1 p = some (normalizeD content B) ∧
        ∀ q, q ≠ p → (process_file fs p B false).2.1 q = fs q)) ∧
    (fs p = none → (process_file fs p B false).2.1 = fs) := by
  refine ⟨?_, ?_, ?_⟩
  · cases hfp : fs p with
    | none => simp [process_file, hfp]
    | some content =>
      by_cases h : normalizeD content B = content <;>
        simp [process_file, hfp, h]
  · intro content hc
    constructor
    · constructor
      · intro hfs
        by_contra h
        have he := congrFun hfs p
        simp only [process_file, hc, if_neg h, if_neg (Bool.false_ne_true),
          if_pos rfl, if_true] at he
        exact h (Option.some.inj he)
      · intro h
        simp [process_file, hc, h]
    · intro h
      constructor
      · simp [process_file, hc, h]
      · intro q hq
        simp [process_file, hc, h, hq]
  · intro h
    simp [process_file, h]

theorem c6_process_file_frame_witness :
    ((process_file (fun _ => some "![a](i/x.png)".toList)
        "README.md".toList "https://x/".toList false).2.1
      "README.md".toList =
      some (normalizeD "![a](i/x.png)".toList "https://x/".toList)) :=
  (((c6_process_file_frame (fun _ => some "![a](i/x.png)".toList)
      "README.md".toList "https://x/".toList).2.1
    "![a](i/x.png)".toList rfl).2 (by decide)).1

theorem runFiles_flag_iff (base : Str) (co : Bool) :
    ∀ (files : List Str) (fs : FS),
      (runFiles fs base co files).1 = true ↔
      ∃ l1 f l2, files = l1 ++ f :: l2 ∧
        (process_file (runFiles fs base co l1).2 f base co).1 = true := by
  intro files
  induction files with
  | nil =>
    intro fs
    simp only [runFiles]
    constructor
    · intro h; cases h
    · rintro ⟨l1, f, l2, h, -⟩
      exact absurd h (by simp)
  | cons g rest ih =>
    intro fs
    simp only [runFiles, Bool.or_eq_true]
    constructor
    · rintro (h | h)
      · exact ⟨[], g, rest, rfl, by simpa [runFiles] using h⟩
      · obtain ⟨l1, f, l2, hsplit, hflag⟩ := (ih _).mp h
        exact ⟨g :: l1, f, l2, by rw [hsplit]; rfl,
          by simpa [runFiles] using hflag⟩
    · rintro ⟨l1, f, l2, hsplit, hflag⟩
      cases l1 with
      | nil =>
        simp only [List.nil_append, List.cons.injEq] at hsplit
        obtain ⟨rfl, rfl⟩ := hsplit
        left
        simpa [runFiles] using hflag
      | cons g1 l1' =>
        simp only [List.cons_append, List.cons.injEq] at hsplit
        obtain ⟨rfl, rfl⟩ := hsplit
        right
        exact (ih _).mpr ⟨l1', f, l2, rfl, by simpa [runFiles] using hflag⟩

/-- Claim C7: `main` returns exit status 1 iff the locator failed to resolve
repository info or some input file changed or would change (some
`process_file` call in the run reported a change); in every other run it
returns 0. -/
theorem c7_main_exit_code (remoteUrl headSha refArg : Option Str)
    (check_only : Bool) (filenames : List Str) (fs : FS) :
    (main remoteUrl headSha refArg check_only filenames fs).1 = 1 ↔
      (get_git_info remoteUrl headSha = none ∨
       ∃ repo_path default_ref l1 f l2,
         get_git_info remoteUrl headSha = some (repo_path, default_ref) ∧
         filenames = l1 ++ f :: l2 ∧
         (process_file
           (runFiles fs (mkBaseUrl repo_path (chosenRef refArg default_ref))
             check_only l1).2
           f (mkBaseUrl repo_path (chosenRef refArg default_ref))
           check_only).1 = true) := by
  unfold main
  cases hg : get_git_info remoteUrl headSha with
  | none => simp
  | some v =>
    obtain ⟨repo, dref⟩ := v
    have hiff := runFiles_flag_iff
      (mkBaseUrl repo (chosenRef refArg dref)) check_only filenames fs
    by_cases hr : (runFiles fs (mkBaseUrl repo (chosenRef refArg dref))
        check_only filenames).1 = true
    · simp only [hr, if_true]
      obtain ⟨l1, f, l2, h1, h2⟩ := hiff.mp hr
      simp only [true_iff]
      right
      exact ⟨repo, dref, l1, f, l2, rfl, h1, h2⟩
    · simp only [hr, if_false, Bool.false_eq_true]
      constructor
      · intro h; cases h
      · rintro (h | ⟨r2, d2, l1, f, l2, heq, hsplit, hflag⟩)
        · cases h
        · obtain ⟨rfl, rfl⟩ : repo = r2 ∧ dref = d2 := by
            have := heq
            simp only [Option.some.injEq, Prod.mk.injEq] at this
            exact ⟨this.1, this.2⟩
          exact absurd (hiff.mpr ⟨l1, f, l2, hsplit, hflag⟩) hr

theorem process_file_preserves_none {fs : FS} {p : Str} (h : fs p = none)
    (q B : Str) (co : Bool) : (process_file fs q B co).2.1 p = none := by
  cases hq : fs q with
  | none => simp [process_file, hq, h]
  | some content =>
    by_cases hc : normalizeD content B = content
    · simp [process_file, hq, hc, h]
    · cases co with
      | true => simp [process_file, hq, hc, h]
      | false =>
        have hpq : p ≠ q := by
          intro he
          rw [he, hq] at h
          cases h
        simp [process_file, hq, hc, h, hpq]

theorem runFiles_skip_missing {p : Str} (base : Str) (co : Bool) :
    ∀ (l1 : List Str) (fs : FS), fs p = none → ∀ (l2 : List Str),
      runFiles fs base co (l1 ++ p :: l2) = runFiles fs base co (l1 ++ l2)
    := by
  intro l1
  induction l1 with
  | nil =>
    intro fs h l2
    simp [runFiles, process_file, h]
  | cons g l1' ih =>
    intro fs h l2
    simp only [List.cons_append, runFiles, List.append_eq]
    rw [ih _ (process_file_preserves_none h g base co) l2]

/-- Claim C8: a missing input file yields a warning and no change, the file
system is untouched by it, processing continues with the remaining files, and
removing the missing file from the input list leaves the whole run of `main`
(exit code and final file system) unchanged — so it never forces a non-zero
exit by itself. -/
theorem c8_missing_file_skipped (fs : FS) (p : Str) (h : fs p = none)
    (B : Str) (co : Bool) :
    process_file fs p B co = (false, fs, [warnMissing p]) ∧
    (∀ remoteUrl headSha refArg l1 l2,
      main remoteUrl headSha refArg co (l1 ++ p :: l2) fs =
        main remoteUrl headSha refArg co (l1 ++ l2) fs) := by
  constructor
  · simp [process_file, h]
  · intro remoteUrl headSha refArg l1 l2
    unfold main
    cases get_git_info remoteUrl headSha with
    | none => rfl
    | some v =>
      obtain ⟨repo, dref⟩ := v
      simp only []
      rw [runFiles_skip_missing _ co l1 fs h l2]

theorem c8_missing_file_skipped_witness :
    process_file (fun _ => none) "gone.md".toList "https://x/".toList true =
      (false, (fun _ => none : FS), [warnMissing "gone.md".toList]) ∧
    main (some "https://github.com/o/r.git".toList) (some "sha".toList)
      none true (["a.md".toList] ++ "gone.md".toList :: []) (fun _ => none) =
    main (some "https://github.com/o/r.git".toList) (some "sha".toList)
      none true (["a.md".toList] ++ []) (fun _ => none) :=
  ⟨(c8_missing_file_skipped (fun _ => none) "gone.md".toList rfl
      "https://x/".toList true).1,
   (c8_missing_file_skipped (fun _ => none) "gone.md".toList rfl
      "https://x/".toList true).2 _ _ none ["a.md".toList] []⟩

/-- Claim C10: an empty `--ref` value is falsy in
`ref = args.ref if args.ref else default_ref`, so `main` builds the base URL
from the locator-resolved revision exactly as if no `--ref` were given; only
a nonempty `--ref` value overrides the resolved revision. -/
theorem c10_empty_ref_ignored (remoteUrl headSha : Option Str)
    (check_only : Bool) (filenames : List Str) (fs : FS) :
    main remoteUrl headSha (some []) check_only filenames fs =
      main remoteUrl headSha none check_only filenames fs ∧
    (∀ d : Str, chosenRef (some []) d = d) ∧
    (∀ (r d : Str), r ≠ [] → chosenRef (some r) d = r) := by
  refine ⟨?_, fun d => rfl, fun r d hr => by simp [chosenRef, hr]⟩
  unfold main
  cases get_git_info remoteUrl headSha with
  | none => rfl
  | some v =>
    obtain ⟨repo, dref⟩ := v
    simp [chosenRef]

theorem c10_empty_ref_ignored_witness :
    chosenRef (some "v1.2".toList) "sha".toList = "v1.2".toList :=
  (c10_empty_ref_ignored none none true [] (fun _ => none)).2.2
    "v1.2".toList "sha".toList (by decide)

theorem parseGithubRemote_no_g {l : Str} (hg : memB 'g' l = false)
    (r : Str) : parseGithubRemote (l ++ r) = parseGithubRemote r := by
  induction l with
  | nil => rfl
  | cons c t ih =>
    obtain ⟨hc, ht⟩ := memB_cons_false hg
    rw [List.cons_append]
    rw [show parseGithubRemote (c :: (t ++ r)) =
      (match tryGhHere (c :: (t ++ r)) with
       | some x => some x
       | none => parseGithubRemote (t ++ r)) from rfl]
    have hnone : tryGhHere (c :: (t ++ r)) = none := by
      unfold tryGhHere
      rw [if_neg]
      intro hh
      rw [show ("github.com".toList : Str) =
        'g' :: "ithub.com".toList from rfl] at hh
      simp only [pfx, Bool.and_eq_true, decide_eq_true_eq] at hh
      exact hc hh.1.symm
    rw [hnone, ih ht]

theorem tryGhHere_at {x : Str} (d : Char) (hd : d = ':' ∨ d = '/')
    (hx : x ≠ []) :
    tryGhHere ("github.com".toList ++ d :: x) = some (stripDotGit x) := by
  unfold tryGhHere
  rw [if_pos (by rw [pfx_refl_append])]
  have hdrop : ("github.com".toList ++ d :: x).drop 10 = d :: x := by
    have h10 : ("github.com".toList : Str).length = 10 := by decide
    rw [← h10, List.drop_left]
  rw [hdrop]
  show (if (d = ':' ∨ d = '/') ∧ x ≠ [] then some (stripDotGit x)
    else none) = some (stripDotGit x)
  rw [if_pos ⟨hd, hx⟩]

theorem stripDotGit_append_git {x : Str} (hx : x ≠ []) :
    stripDotGit (x ++ ".git".toList) = x := by
  unfold stripDotGit
  have h4 : (".git".toList : Str).length = 4 := by decide
  have hlen : (x ++ ".git".toList).length = x.length + 4 := by
    rw [List.length_append, h4]
  rw [hlen]
  have hsub : x.length + 4 - 4 = x.length := by omega
  rw [hsub, List.drop_left, List.take_left]
  have hpos : 0 < x.length := List.length_pos.mpr hx
  rw [if_pos ⟨by decide, by omega⟩]

theorem parseGithubRemote_cons (c : Char) (t : Str) :
    parseGithubRemote (c :: t) =
      (match tryGhHere (c :: t) with
       | some x => some x
       | none => parseGithubRemote t) := rfl

theorem parseGithubRemote_none_iff (u : Str) :
    parseGithubRemote u = none ↔ hasGhMatch u = false := by
  induction u with
  | nil => simp [parseGithubRemote, hasGhMatch]
  | cons c t ih =>
    rw [parseGithubRemote_cons]
    rw [show hasGhMatch (c :: t) =
      ((match tryGhHere (c :: t) with
        | some _ => true
        | none => false) || hasGhMatch t) from rfl]
    cases tryGhHere (c :: t) with
    | none => simpa using ih
    | some x => simp

/-- Claim C9, counterexample: the remote-URL pattern is matched with
`re.search`, so it anchors on the substring `github.com` anywhere in the URL,
not on the URL's host.  A remote whose host is `gitlab.com` but whose path
contains `github.com/owner/repo` makes the locator succeed, contradicting
"fails whenever the host is not the recognized github.com host". -/
theorem c9_not_host_anchored_counterexample :
    hostOf "https://gitlab.com/github.com/owner/repo.git".toList ≠
      "github.com".toList ∧
    get_git_info
      (some "https://gitlab.com/github.com/owner/repo.git".toList)
      (some "deadbeef".toList) =
      some ("owner/repo".toList, "deadbeef".toList) := by
  constructor
  · decide
  · decide

/-- Claim C9, amended: `get_git_info` accepts both transport forms —
`https://github.com/owner/repo(.git)` and `user@github.com:owner/repo(.git)`
— extracting the repository path with one trailing `.git` removed; the
pattern is anchored on the first occurrence of the substring `github.com`
followed by `:` or `/` with a nonempty remainder (not on the URL's host
position), and the locator fails exactly when no such occurrence exists or
one of the two git commands fails. -/
theorem c9_remote_url_parsing (x sha : Str) (hx : x ≠ []) :
    parseGithubRemote ("https://github.com/".toList ++ (x ++ ".git".toList))
      = some x ∧
    parseGithubRemote ("git@github.com:".toList ++ (x ++ ".git".toList))
      = some x ∧
    (∀ u, parseGithubRemote u = none ↔ hasGhMatch u = false) ∧
    (∀ u, get_git_info (some u) (some sha) =
      (parseGithubRemote u).map (fun r => (r, sha))) ∧
    (∀ s, get_git_info none s = none) ∧
    (∀ u, get_git_info (some u) none = none) := by
  have hxg : x ++ ".git".toList ≠ [] := by
    intro h
    exact hx (List.append_eq_nil.mp h).1
  refine ⟨?_, ?_, parseGithubRemote_none_iff, ?_, fun s => rfl, ?_⟩
  · rw [show ("https://github.com/".toList : Str) ++ (x ++ ".git".toList) =
      "https://".toList ++ ("github.com".toList ++ '/' ::
        (x ++ ".git".toList)) from by simp]
    rw [parseGithubRemote_no_g (by decide)]
    rw [show ("github.com".toList : Str) ++ '/' :: (x ++ ".git".toList) =
      'g' :: ("ithub.com".toList ++ '/' :: (x ++ ".git".toList)) from rfl]
    rw [parseGithubRemote_cons]
    rw [show 'g' :: (("ithub.com".toList : Str) ++ '/' ::
      (x ++ ".git".toList)) = "github.com".toList ++ '/' ::
        (x ++ ".git".toList) from rfl]
    rw [tryGhHere_at '/' (Or.inr rfl) hxg]
    rw [stripDotGit_append_git hx]
  · rw [show ("git@github.com:".toList : Str) ++ (x ++ ".git".toList) =
      'g' :: 'i' :: 't' :: '@' :: ("github.com".toList ++ ':' ::
        (x ++ ".git".toList)) from by simp]
    rw [parseGithubRemote_cons]
    have hgnone : tryGhHere ('g' :: 'i' :: 't' :: '@' ::
        (("github.com".toList : Str) ++ ':' :: (x ++ ".git".toList))) =
        none := by
      unfold tryGhHere
      rw [if_neg]
      intro hh
      rw [show ("github.com".toList : Str) =
        'g' :: 'i' :: 't' :: 'h' :: "ub.com".toList from rfl] at hh
      simp only [pfx, Bool.and_eq_true, decide_eq_true_eq] at hh
      exact absurd hh.2.2.2.1 (by decide)
    rw [hgnone]
    show parseGithubRemote ("it@".toList ++ (("github.com".toList : Str) ++
      ':' :: (x ++ ".git".toList))) = some x
    rw [parseGithubRemote_no_g (by decide)]
    rw [show ("github.com".toList : Str) ++ ':' :: (x ++ ".git".toList) =
      'g' :: ("ithub.com".toList ++ ':' :: (x ++ ".git".toList)) from rfl]
    rw [parseGithubRemote_cons]
    rw [show 'g' :: (("ithub.com".toList : Str) ++ ':' ::
      (x ++ ".git".toList)) = "github.com".toList ++ ':' ::
        (x ++ ".git".toList) from rfl]
    rw [tryGhHere_at ':' (Or.inl rfl) hxg]
    rw [stripDotGit_append_git hx]
  · intro u
    cases h : parseGithubRemote u with
    | none => simp [get_git_info, h]
    | some r => simp [get_git_info, h]
  · intro u
    cases h : parseGithubRemote u with
    | none => simp [get_git_info, h]
    | some r => simp [get_git_info, h]

theorem c9_remote_url_parsing_witness :
    parseGithubRemote ("https://github.com/".toList ++
      ("owner/repo".toList ++ ".git".toList)) = some "owner/repo".toList ∧
    parseGithubRemote ("git@github.com:".toList ++
      ("owner/repo".toList ++ ".git".toList)) = some "owner/repo".toList :=
  ⟨(c9_remote_url_parsing "owner/repo".toList "sha".toList (by decide)).1,
   (c9_remote_url_parsing "owner/repo".toList "sha".toList (by decide)).2.1⟩

end FlowregHooks
